import Mathlib

/-!
Shallow embedding of the jrsonnet evaluator core: the call binder
(`crates/jrsonnet-evaluator/src/function.rs`) and the value model,
thunks, arrays, manifestation and equality
(`crates/jrsonnet-evaluator/src/val.rs`).

Conventions of the embedding:
* Rust `Result<T>` becomes `PRes T` with a third alternative `panicked`
  so that aborts via `expect`/`unwrap` stay distinguishable from
  structured errors.
* The external expression evaluator `evaluate(ctx, expr)` is passed in
  as an explicit function argument `eval`; `Expr` nodes are opaque tags.
* Thunk computations (`Box<dyn Fn() -> Result<Val>>`) are pure here, so
  a waiting thunk is represented by the result its stored computation
  would produce.
* `f64` numbers are represented by `Rat`; the `Val::Num` invariant of
  the code guarantees finiteness, and no claim in scope depends on
  floating-point rounding beyond `x - x = 0` for finite `x`.
-/

namespace Jrsonnet

/-- Opaque expression node (`LocExpr` from `jrsonnet_parser`); only its
identity matters, evaluation is supplied externally. -/
structure Expr where
  tag : Nat
deriving DecidableEq, Repr

/-- A declared function parameter (`jrsonnet_parser::Param`): a name and an
optional default expression (`p.0`, `p.1` in the source). -/
structure Param where
  name : String
  default : Option Expr
deriving DecidableEq, Repr

/-- A call-site argument (`jrsonnet_parser::Arg`): optionally named, with an
argument expression (`arg.0`, `arg.1` in the source). -/
structure Arg where
  name : Option String
  expr : Expr
deriving DecidableEq, Repr

/-- Error kinds of `jrsonnet_evaluator::error::Error` used by the code in
scope. `runtimeError` carries the message of `Error::RuntimeError`. -/
inductive EvalError where
  | unknownFunctionParameter (name : String)
  | tooManyArgsFunctionHas (count : Nat)
  | bindingParameterASecondTime (name : String)
  | functionParameterNotBoundInCall (name : String)
  | variableIsNotDefined (name : String)
  | streamManifestOutputIsNotAArray
  | streamManifestOutputCannotBeRecursed
  | streamManifestCannotNestString
  | stringManifestOutputIsNotAString
  | multiManifestOutputIsNotAObject
  | typeMismatch (context : String)
  | runtimeError (msg : String)
deriving DecidableEq, Repr

/-- Outcome of a fallible Rust computation: `ok`/`err` mirror `Result`,
`panicked` mirrors a process abort through `expect`/`unwrap`. -/
inductive PRes (α : Type) where
  | ok (a : α)
  | err (e : EvalError)
  | panicked (msg : String)
deriving DecidableEq, Repr

mutual

/-- `Val`: the tagged union of runtime values (`val.rs`). `ObjValue` is
external to the snippet; modelled from the spec as its list of visible
fields with their evaluated values. `FuncVal::Normal`'s captured context
and the parameter lists are kept; callback bodies are external. -/
inductive Val where
  | bool (b : Bool)
  | null
  | str (s : String)
  | num (n : Rat)
  | arr (a : ArrValue)
  | obj (fields : List ObjField)
  | func (f : FuncVal)

/-- Modelled from the spec: one visible field of the external `ObjValue`
object model (name plus evaluated field value). -/
inductive ObjField where
  | mk (key : String) (value : Val)

/-- `ArrValue`: dual-mode array, a vector of thunks or of values. -/
inductive ArrValue where
  | lazy (items : List LazyVal)
  | eager (items : List Val)

/-- `LazyValInternals`: a thunk cell is either computed or still waiting;
the waiting computation is pure, so it is represented by its result. -/
inductive LazyVal where
  | computed (v : Val)
  | waiting (r : EvalResult)

/-- `Result<Val>` as produced by a thunk computation or by the external
expression evaluator (no panics in the type). -/
inductive EvalResult where
  | ok (v : Val)
  | err (e : EvalError)

/-- `FuncVal`: interpreted closure, intrinsic, or native extension.
The native callback's host function is external; only its declared
parameter list is kept. -/
inductive FuncVal where
  | normal (name : String) (cctx : Context) (params : List Param) (body : Expr)
  | intrinsic (name : String)
  | nativeExt (name : String) (params : List Param)

/-- Modelled from the spec: an Environment Frame (`Context`, not part of the
snippet) is an immutable chain of binding frames, newest first. -/
inductive Context where
  | base
  | extended (parent : Context) (bindings : List Binding)

/-- One name-to-thunk binding inside a frame. -/
inductive Binding where
  | mk (key : String) (value : LazyVal)

end

def Binding.key : Binding → String
  | .mk k _ => k

def Binding.value : Binding → LazyVal
  | .mk _ v => v

def ObjField.key : ObjField → String
  | .mk k _ => k

def ObjField.value : ObjField → Val
  | .mk _ v => v

/-- The result a thunk's evaluation yields, ignoring the state update:
a computed cell returns its cached value, a waiting cell the result of
its stored computation. -/
def LazyVal.evalResult : LazyVal → EvalResult
  | .computed v => .ok v
  | .waiting r => r

/-- State-passing embedding of `LazyVal::evaluate` (`val.rs` lines 29-36):
returns the call's result, the updated cell state, and how many times the
stored computation ran during this call (0 or 1). On success the cell
becomes `computed`; on failure the `?` on `f()` returns before the
`borrow_mut` assignment, so the cell stays `waiting`. -/
def LazyVal.evaluate : LazyVal → EvalResult × LazyVal × Nat
  | .computed v => (.ok v, .computed v, 0)
  | .waiting (.ok v) => (.ok v, .computed v, 1)
  | .waiting (.err e) => (.err e, .waiting (.err e), 1)

/-- Message of the `expect` in `function.rs` lines 7-8. -/
def NO_DEFAULT_CONTEXT : String :=
  "no default context set for call with defined default parameter value"

/-- Lookup inside one frame's binding list (`HashMap` lookup). -/
def lookupBinding : List Binding → String → Option LazyVal
  | [], _ => none
  | .mk k v :: rest, n => if k = n then some v else lookupBinding rest n

/-- `HashMap::insert`: replaces the value when the key is present,
otherwise adds the entry. -/
def insertBinding : List Binding → String → LazyVal → List Binding
  | [], k, v => [.mk k v]
  | .mk k0 v0 :: rest, k, v =>
    if k0 = k then .mk k v :: rest else .mk k0 v0 :: insertBinding rest k v

/-- `Context::extend`: a new frame over `ctx` holding `out`
(the `$`, `this`, `super` slots of the source are out of scope). -/
def Context.extend (ctx : Context) (out : List Binding) : Context :=
  .extended ctx out

/-- Modelled from the spec: `Context::binding` walks the frame chain,
newest frame first; a missing name is a structured error. -/
def Context.binding : Context → String → PRes LazyVal
  | .base, n => .err (.variableIsNotDefined n)
  | .extended parent bs, n =>
    match lookupBinding bs n with
    | some lv => .ok lv
    | none => parent.binding n

/-- Index resolution for one call argument (`function.rs` lines 28-35):
a named argument is looked up among the parameters
(`UnknownFunctionParameter` when absent), a positional argument uses its
absolute position `id` in the argument list. -/
def resolveIdx (params : List Param) (id : Nat) (a : Arg) : PRes Nat :=
  match a.name with
  | some n =>
    match params.findIdx? (fun p => p.name = n) with
    | some idx => .ok idx
    | none => .err (.unknownFunctionParameter n)
  | none => .ok id

/-- The argument-placement loop of `parse_function_call`
(`function.rs` lines 27-44): `pos` is `positioned_args`, `id` the
enumeration counter. Checks, in source order: index resolution,
`idx >= params.len()`, slot already filled. -/
def placeArgsLoop (params : List Param) :
    List (Option Expr) → Nat → List Arg → PRes (List (Option Expr))
  | pos, _, [] => .ok pos
  | pos, id, a :: rest =>
    match resolveIdx params id a with
    | .err e => .err e
    | .panicked m => .panicked m
    | .ok idx =>
      if params.length ≤ idx then
        .err (.tooManyArgsFunctionHas params.length)
      else if (pos.getD idx none).isSome then
        .err (.bindingParameterASecondTime ((params.getD idx ⟨"", none⟩).name))
      else
        placeArgsLoop params (pos.set idx (some a.expr)) (id + 1) rest

/-- Argument placement, starting from `vec![None; params.0.len()]`. -/
def placeArgs (params : List Param) (args : List Arg) :
    PRes (List (Option Expr)) :=
  placeArgsLoop params (List.replicate params.length none) 0 args

/-- The default-filling loop of `parse_function_call`
(`function.rs` lines 46-60), over the parameters paired with their placed
argument expression. `acc` is the `out` map under construction; the thunk
for each parameter comes from the placed argument (in `ctx`), else from
the declared default (in `body_ctx`, aborting with `NO_DEFAULT_CONTEXT`
when `body_ctx` is `None`), else the parameter is unbound. Under
`tailstrict` the expression is evaluated in place, otherwise a waiting
thunk capturing the chosen context is created. -/
def fillArgsLoop (eval : Context → Expr → EvalResult) (ctx : Context)
    (bodyCtx : Option Context) (tailstrict : Bool) :
    List Binding → List (Param × Option Expr) → PRes (List Binding)
  | acc, [] => .ok acc
  | acc, (p, oe) :: rest =>
    match
      (match oe with
      | some e => PRes.ok (ctx, e)
      | none =>
        match p.default with
        | some d =>
          match bodyCtx with
          | some bc => PRes.ok (bc, d)
          | none => PRes.panicked NO_DEFAULT_CONTEXT
        | none => PRes.err (.functionParameterNotBoundInCall p.name))
    with
    | .err e => .err e
    | .panicked m => .panicked m
    | .ok (cctx, e) =>
      match
        (if tailstrict then
          match eval cctx e with
          | .ok v => PRes.ok (LazyVal.computed v)
          | .err er => PRes.err er
        else
          PRes.ok (LazyVal.waiting (eval cctx e)))
      with
      | .err er => .err er
      | .panicked m => .panicked m
      | .ok lv =>
        fillArgsLoop eval ctx bodyCtx tailstrict (insertBinding acc p.name lv) rest

/-- Default filling over the whole parameter list. -/
def fillArgs (eval : Context → Expr → EvalResult) (ctx : Context)
    (bodyCtx : Option Context) (tailstrict : Bool)
    (entries : List (Param × Option Expr)) : PRes (List Binding) :=
  fillArgsLoop eval ctx bodyCtx tailstrict [] entries

/-- `parse_function_call` (`function.rs` lines 18-63): place the call
arguments, fill the remaining parameters from defaults, and extend
`body_ctx.unwrap_or(ctx)` with the resulting bindings. -/
def parse_function_call (eval : Context → Expr → EvalResult) (ctx : Context)
    (bodyCtx : Option Context) (params : List Param) (args : List Arg)
    (tailstrict : Bool) : PRes Context :=
  match placeArgs params args with
  | .err e => .err e
  | .panicked m => .panicked m
  | .ok pos =>
    match fillArgs eval ctx bodyCtx tailstrict (params.zip pos) with
    | .err e => .err e
    | .panicked m => .panicked m
    | .ok out => .ok ((bodyCtx.getD ctx).extend out)

/-! Array representation (`val.rs` lines 179-255). -/

/-- `ArrValue::len`. -/
def ArrValue.length : ArrValue → Nat
  | .lazy l => l.length
  | .eager l => l.length

/-- `ArrValue::is_empty`. -/
def ArrValue.isEmpty (a : ArrValue) : Bool :=
  a.length = 0

/-- `ArrValue::get` (`val.rs` lines 191-202): forces the element of a lazy
array, clones it from an eager one; out-of-range is `Ok(None)`. -/
def ArrValue.get : ArrValue → Nat → PRes (Option Val)
  | .lazy l, i =>
    match l.get? i with
    | some lv =>
      match lv.evalResult with
      | .ok v => .ok (some v)
      | .err e => .err e
    | none => .ok none
  | .eager l, i => .ok (l.get? i)

/-- The collection loop of `ArrValue::evaluated` over a lazy vector. -/
def evalAll : List LazyVal → PRes (List Val)
  | [] => .ok []
  | lv :: rest =>
    match lv.evalResult with
    | .err e => .err e
    | .ok v =>
      match evalAll rest with
      | .ok vs => .ok (v :: vs)
      | .err e => .err e
      | .panicked m => .panicked m

/-- `ArrValue::evaluated` (`val.rs` lines 214-225): force every element of
a lazy array; an eager array is returned as is. -/
def ArrValue.evaluated : ArrValue → PRes (List Val)
  | .lazy l => evalAll l
  | .eager l => .ok l

/-! Value type tags and the equality engine (`val.rs` lines 325-335 and
505-561). -/

/-- `jrsonnet_types::ValType` tags. -/
inductive ValType where
  | bool
  | null
  | str
  | num
  | arr
  | obj
  | func
deriving DecidableEq, Repr

/-- `Val::value_type`. -/
def Val.valueType : Val → ValType
  | .bool _ => .bool
  | .null => .null
  | .str _ => .str
  | .num _ => .num
  | .arr _ => .arr
  | .obj _ => .obj
  | .func _ => .func

/-- `is_function_like` (`val.rs` lines 505-507). -/
def is_function_like : Val → Bool
  | .func _ => true
  | _ => false

/-- `f64::EPSILON` = 2^-52. -/
def f64Epsilon : Rat :=
  1 / 2 ^ 52

/-- Absolute value, as `f64::abs` on the `Rat` stand-in. -/
def ratAbs (q : Rat) : Rat :=
  if q < 0 then -q else q

/-- `primitive_equals` (`val.rs` lines 510-527): scalar comparisons,
numbers within machine epsilon; arrays, objects and function pairs are
runtime errors; any other cross-type pair is unequal. -/
def primitive_equals (a b : Val) : PRes Bool :=
  match a, b with
  | .bool x, .bool y => .ok (x == y)
  | .null, .null => .ok true
  | .str x, .str y => .ok (x == y)
  | .num x, .num y => .ok (decide (ratAbs (x - y) ≤ f64Epsilon))
  | .arr _, .arr _ =>
    .err (.runtimeError "primitiveEquals operates on primitive types, got array")
  | .obj _, .obj _ =>
    .err (.runtimeError "primitiveEquals operates on primitive types, got object")
  | x, y =>
    if is_function_like x && is_function_like y then
      .err (.runtimeError "cannot test equality of functions")
    else
      .ok false

/-- Modelled from the spec: `ObjValue::visible_fields` of the external
object model, the ordered field names of the object. -/
def objFields (fs : List ObjField) : List String :=
  fs.map ObjField.key

/-- Modelled from the spec: `ObjValue::get` of the external object model,
field lookup returning the evaluated field value. -/
def objGet : List ObjField → String → Option Val
  | [], _ => none
  | .mk k v :: rest, n => if k = n then some v else objGet rest n

mutual

/-- `equals` (`val.rs` lines 530-561): deep structural equality. Distinct
type tags are unequal; arrays compare lengthwise then elementwise in
order; objects compare their visible-field-name lists then each field's
value; everything else delegates to `primitive_equals`. -/
def equals (a b : Val) : PRes Bool :=
  if a.valueType ≠ b.valueType then .ok false
  else
    match a, b with
    | .arr x, .arr y =>
      if x.length ≠ y.length then .ok false
      else equalsArr x y
    | .obj fx, .obj fy =>
      if objFields fx ≠ objFields fy then .ok false
      else equalsFieldsLoop fx fy (objFields fx)
    | x, y => primitive_equals x y
termination_by (sizeOf a + sizeOf b, (0 : Nat))
decreasing_by
  all_goals simp_wf
  all_goals apply Prod.Lex.left
  all_goals omega

/-- The zipped element loop of `equals` over the four representation
pairings of `a.iter().zip(b.iter())`. -/
def equalsArr : ArrValue → ArrValue → PRes Bool
  | .lazy xs, .lazy ys => equalsLL xs ys
  | .lazy xs, .eager ys => equalsLE xs ys
  | .eager xs, .lazy ys => equalsEL xs ys
  | .eager xs, .eager ys => equalsEE xs ys
termination_by x y => (sizeOf x + sizeOf y, (0 : Nat))
decreasing_by
  all_goals simp_wf
  all_goals apply Prod.Lex.left
  all_goals omega

def equalsLL : List LazyVal → List LazyVal → PRes Bool
  | [], _ => .ok true
  | _ :: _, [] => .ok true
  | x :: xs, y :: ys =>
    match hx : x.evalResult with
    | .err e => .err e
    | .ok xv =>
      match hy : y.evalResult with
      | .err e => .err e
      | .ok yv =>
        match equals xv yv with
        | .ok true => equalsLL xs ys
        | .ok false => .ok false
        | .err e => .err e
        | .panicked m => .panicked m
termination_by xs ys => (sizeOf xs + sizeOf ys, (0 : Nat))
decreasing_by
  all_goals simp_wf
  all_goals apply Prod.Lex.left
  · have key : ∀ (lv : LazyVal) (w : Val),
        lv.evalResult = .ok w → sizeOf w < sizeOf lv := by
      intro lv w hw
      cases lv with
      | computed u =>
        simp [LazyVal.evalResult] at hw
        subst hw
        simp
      | waiting r =>
        cases r with
        | ok u =>
          simp [LazyVal.evalResult] at hw
          subst hw
          simp
          omega
        | err e => simp [LazyVal.evalResult] at hw
    have sx := key _ _ hx
    have sy := key _ _ hy
    omega
  · omega

def equalsLE : List LazyVal → List Val → PRes Bool
  | [], _ => .ok true
  | _ :: _, [] => .ok true
  | x :: xs, y :: ys =>
    match hx : x.evalResult with
    | .err e => .err e
    | .ok xv =>
      match equals xv y with
      | .ok true => equalsLE xs ys
      | .ok false => .ok false
      | .err e => .err e
      | .panicked m => .panicked m
termination_by xs ys => (sizeOf xs + sizeOf ys, (0 : Nat))
decreasing_by
  all_goals simp_wf
  all_goals apply Prod.Lex.left
  · have key : ∀ (lv : LazyVal) (w : Val),
        lv.evalResult = .ok w → sizeOf w < sizeOf lv := by
      intro lv w hw
      cases lv with
      | computed u =>
        simp [LazyVal.evalResult] at hw
        subst hw
        simp
      | waiting r =>
        cases r with
        | ok u =>
          simp [LazyVal.evalResult] at hw
          subst hw
          simp
          omega
        | err e => simp [LazyVal.evalResult] at hw
    have sx := key _ _ hx
    omega
  · omega

def equalsEL : List Val → List LazyVal → PRes Bool
  | [], _ => .ok true
  | _ :: _, [] => .ok true
  | x :: xs, y :: ys =>
    match hy : y.evalResult with
    | .err e => .err e
    | .ok yv =>
      match equals x yv with
      | .ok true => equalsEL xs ys
      | .ok false => .ok false
      | .err e => .err e
      | .panicked m => .panicked m
termination_by xs ys => (sizeOf xs + sizeOf ys, (0 : Nat))
decreasing_by
  all_goals simp_wf
  all_goals apply Prod.Lex.left
  · have key : ∀ (lv : LazyVal) (w : Val),
        lv.evalResult = .ok w → sizeOf w < sizeOf lv := by
      intro lv w hw
      cases lv with
      | computed u =>
        simp [LazyVal.evalResult] at hw
        subst hw
        simp
      | waiting r =>
        cases r with
        | ok u =>
          simp [LazyVal.evalResult] at hw
          subst hw
          simp
          omega
        | err e => simp [LazyVal.evalResult] at hw
    have sy := key _ _ hy
    omega
  · omega

def equalsEE : List Val → List Val → PRes Bool
  | [], _ => .ok true
  | _ :: _, [] => .ok true
  | x :: xs, y :: ys =>
    match equals x y with
    | .ok true => equalsEE xs ys
    | .ok false => .ok false
    | .err e => .err e
    | .panicked m => .panicked m
termination_by xs ys => (sizeOf xs + sizeOf ys, (0 : Nat))
decreasing_by
  all_goals simp_wf
  all_goals apply Prod.Lex.left
  all_goals omega

/-- The field loop of `equals` on objects: for every visible field name,
compare the two field values; a missing field reproduces the source's
`.unwrap()` abort. -/
def equalsFieldsLoop (fx fy : List ObjField) : List String → PRes Bool
  | [] => .ok true
  | f :: rest =>
    match hx : objGet fx f with
    | none => .panicked "called Option unwrap on a None value"
    | some xv =>
      match hy : objGet fy f with
      | none => .panicked "called Option unwrap on a None value"
      | some yv =>
        match equals xv yv with
        | .ok true => equalsFieldsLoop fx fy rest
        | .ok false => .ok false
        | .err e => .err e
        | .panicked m => .panicked m
termination_by l => (sizeOf fx + sizeOf fy, sizeOf l)
decreasing_by
  · apply Prod.Lex.left
    have key : ∀ (fs : List ObjField) (w : Val),
        objGet fs f = some w → sizeOf w < sizeOf fs := by
      intro fs
      induction fs with
      | nil =>
        intro w hw
        simp [objGet] at hw
      | cons g rest ih =>
        intro w hw
        cases g with
        | mk k u =>
          by_cases hk : k = f
          · simp [objGet, hk] at hw
            subst hw
            simp
            omega
          · simp [objGet, hk] at hw
            have := ih w hw
            simp
            omega
    have sx := key _ _ hx
    have sy := key _ _ hy
    omega
  · apply Prod.Lex.right
    simp

end

/-! Manifestation engine (`val.rs` lines 165-172 and 337-502). -/

/-- `ManifestFormat` (`val.rs` lines 165-172). -/
inductive ManifestFormat where
  | yamlStream (nested : ManifestFormat)
  | yaml (padding : Nat)
  | json (padding : Nat)
  | toStringFormat
  | string
deriving DecidableEq, Repr

/-- The external rendering backends used by `Val::manifest`:
`to_json`/`to_yaml` (which delegate to `manifest_json_ex` and the
`std.manifestYamlDoc` evaluation, both outside the snippet) and the
`manifest_json_ex` `ToString`-mode fallback of `Val::to_string`. -/
structure ManifestBackend where
  toJson : Val → Nat → PRes String
  toYaml : Val → Nat → PRes String
  toStringFallback : Val → PRes String

/-- `Val::to_string` (`val.rs` lines 337-352): booleans and null render as
literal words, strings pass through, everything else falls back to
`manifest_json_ex` in `ToString` mode. -/
def Val.to_string (B : ManifestBackend) : Val → PRes String
  | .bool true => .ok "true"
  | .bool false => .ok "false"
  | .null => .ok "null"
  | .str s => .ok s
  | v => B.toStringFallback v

mutual

/-- `Val::manifest` (`val.rs` lines 385-419). The `YamlStream` arm first
requires an array, then rejects a nested `YamlStream` or `String` format,
then (for a non-empty array) emits `---\n`, the element manifested under
the nested format, and `\n` per element, with a trailing `...`. -/
def Val.manifest (B : ManifestBackend) : Val → ManifestFormat → PRes String
  | v, .yamlStream fmt =>
    match v with
    | .arr a =>
      match fmt with
      | .yamlStream _ => .err .streamManifestOutputCannotBeRecursed
      | .string => .err .streamManifestCannotNestString
      | _ =>
        if a.isEmpty then .ok ""
        else
          match
            (match a with
            | .lazy l => manifestStreamL B fmt l
            | .eager l => manifestStreamE B fmt l)
          with
          | .ok body => .ok (body ++ "...")
          | .err e => .err e
          | .panicked m => .panicked m
    | _ => .err .streamManifestOutputIsNotAArray
  | v, .yaml padding => B.toYaml v padding
  | v, .json padding => B.toJson v padding
  | v, .toStringFormat => v.to_string B
  | v, .string =>
    match v with
    | .str s => .ok s
    | _ => .err .stringManifestOutputIsNotAString
termination_by v _ => sizeOf v
decreasing_by
  all_goals simp_wf
  all_goals omega

/-- The `YamlStream` element loop over a lazy array: each iteration forces
the element and manifests it under the nested format. -/
def manifestStreamL (B : ManifestBackend) (fmt : ManifestFormat) :
    List LazyVal → PRes String
  | [] => .ok ""
  | x :: xs =>
    match hx : x.evalResult with
    | .err e => .err e
    | .ok xv =>
      match xv.manifest B fmt with
      | .err e => .err e
      | .panicked m => .panicked m
      | .ok s =>
        match manifestStreamL B fmt xs with
        | .ok srest => .ok ("---\n" ++ s ++ "\n" ++ srest)
        | .err e => .err e
        | .panicked m => .panicked m
termination_by l => sizeOf l
decreasing_by
  · have key : ∀ (lv : LazyVal) (w : Val),
        lv.evalResult = .ok w → sizeOf w < sizeOf lv := by
      intro lv w hw
      cases lv with
      | computed u =>
        simp [LazyVal.evalResult] at hw
        subst hw
        simp
      | waiting r =>
        cases r with
        | ok u =>
          simp [LazyVal.evalResult] at hw
          subst hw
          simp
          omega
        | err e => simp [LazyVal.evalResult] at hw
    have sx := key _ _ hx
    simp
    omega
  · simp

/-- The `YamlStream` element loop over an eager array. -/
def manifestStreamE (B : ManifestBackend) (fmt : ManifestFormat) :
    List Val → PRes String
  | [] => .ok ""
  | x :: xs =>
    match x.manifest B fmt with
    | .err e => .err e
    | .panicked m => .panicked m
    | .ok s =>
      match manifestStreamE B fmt xs with
      | .ok srest => .ok ("---\n" ++ s ++ "\n" ++ srest)
      | .err e => .err e
      | .panicked m => .panicked m
termination_by l => sizeOf l
decreasing_by
  · simp
    omega
  · simp

end

/-! Function application (`val.rs` lines 101-129). -/

/-- `Result<Val>` lifted into the panic-aware outcome type. -/
def liftE : EvalResult → PRes Val
  | .ok v => .ok v
  | .err e => .err e

/-- The argument-collection loop of the `NativeExt` arm of
`FuncVal::evaluate` (`val.rs` lines 122-125): for each declared parameter,
look its binding up in the bound context and force it. -/
def bindingsToVals (c : Context) : List Param → PRes (List Val)
  | [] => .ok []
  | p :: ps =>
    match c.binding p.name with
    | .err e => .err e
    | .panicked m => .panicked m
    | .ok lv =>
      match lv.evalResult with
      | .err e => .err e
      | .ok v =>
        match bindingsToVals c ps with
        | .ok vs => .ok (v :: vs)
        | .err e => .err e
        | .panicked m => .panicked m

/-- `FuncVal::evaluate` (`val.rs` lines 101-129). The interpreted-closure
arm binds against the closure's captured context; the intrinsic arm
dispatches to the external builtin table; the native-extension arm binds
with `body_ctx = None` and `tailstrict = true`, forces every declared
parameter's binding in order, and invokes the external host callback. -/
def FuncVal.evaluate (eval : Context → Expr → EvalResult)
    (builtin : Context → String → List Arg → EvalResult)
    (native : String → List Val → EvalResult)
    (fv : FuncVal) (callCtx : Context) (args : List Arg)
    (tailstrict : Bool) : PRes Val :=
  match fv with
  | .normal _ cctx params body =>
    match parse_function_call eval callCtx (some cctx) params args tailstrict with
    | .ok c => liftE (eval c body)
    | .err e => .err e
    | .panicked m => .panicked m
  | .intrinsic name => liftE (builtin callCtx name args)
  | .nativeExt name params =>
    match parse_function_call eval callCtx none params args true with
    | .ok c =>
      match bindingsToVals c params with
      | .ok outArgs => liftE (native name outArgs)
      | .err e => .err e
      | .panicked m => .panicked m
    | .err e => .err e
    | .panicked m => .panicked m

/-! A decidable well-formedness predicate for the reflexivity property:
the value contains no function anywhere and every reachable thunk's
stored computation succeeds (so the value is fully traversable without
error). This captures the spec's "non-function value reachable without
recursion" side condition. -/

mutual

def Val.wf : Val → Bool
  | .bool _ => true
  | .null => true
  | .str _ => true
  | .num _ => true
  | .arr a => a.wf
  | .obj fs => objFieldsWf fs
  | .func _ => false

def ArrValue.wf : ArrValue → Bool
  | .lazy l => lazyListWf l
  | .eager l => eagerListWf l

def LazyVal.wf : LazyVal → Bool
  | .computed v => v.wf
  | .waiting (.ok v) => v.wf
  | .waiting (.err _) => false

def lazyListWf : List LazyVal → Bool
  | [] => true
  | x :: xs => x.wf && lazyListWf xs

def eagerListWf : List Val → Bool
  | [] => true
  | v :: vs => v.wf && eagerListWf vs

def objFieldsWf : List ObjField → Bool
  | [] => true
  | .mk _ v :: fs => v.wf && objFieldsWf fs

end

/-- A concrete rendering backend used for closed evaluations of
`Val.manifest`. -/
def trivialBackend : ManifestBackend where
  toJson := fun _ _ => .ok "J"
  toYaml := fun _ _ => .ok "Y"
  toStringFallback := fun _ => .ok "S"

/-- One entry of the default-filling loop binds without error or abort:
a placed argument only needs its expression to evaluate (and only under
`tailstrict`); an unplaced parameter needs a declared default, a callee
base context, and (under `tailstrict`) a successful default evaluation. -/
def FillsOk (eval : Context → Expr → EvalResult) (ctx : Context)
    (bodyCtx : Option Context) (ts : Bool) : Param × Option Expr → Prop
  | (p, oe) =>
    match oe with
    | some e => ts = true → ∃ v, eval ctx e = .ok v
    | none => ∃ d bc, p.default = some d ∧ bodyCtx = some bc ∧
        (ts = true → ∃ v, eval bc d = .ok v)

/-!  ## Claims  -/

/-- C3: for every thunk, the first evaluation request runs the stored
computation (run count 1 on a waiting cell, 0 on a computed cell); on
success the result is cached (`computed`) and a subsequent `evaluate`
returns it with run count 0; on failure the error propagates, the cell
stays `waiting` (no negative caching), and a later call runs the
computation again (run count 1). -/
theorem c3_thunk_memoization :
    (∀ v : Val, LazyVal.evaluate (.computed v) = (.ok v, .computed v, 0)) ∧
    (∀ r : EvalResult, (LazyVal.evaluate (.waiting r)).2.2 = 1) ∧
    (∀ v : Val,
      LazyVal.evaluate (.waiting (.ok v)) = (.ok v, .computed v, 1) ∧
      LazyVal.evaluate (LazyVal.evaluate (.waiting (.ok v))).2.1
        = (.ok v, .computed v, 0)) ∧
    (∀ e : EvalError,
      LazyVal.evaluate (.waiting (.err e)) = (.err e, .waiting (.err e), 1) ∧
      (LazyVal.evaluate (LazyVal.evaluate (.waiting (.err e))).2.1).2.2 = 1) := by
  refine ⟨fun v => rfl, fun r => ?_, fun v => ⟨rfl, rfl⟩, fun e => ⟨rfl, rfl⟩⟩
  cases r <;> rfl

/-- C5 counterexample: on a non-array value the `YamlStream(YamlStream(_))`
manifestation fails with `StreamManifestOutputIsNotAArray`, not with the
recursion-forbidden error, because the array check precedes the
nested-format check. -/
theorem c5_counterexample :
    Val.manifest trivialBackend .null (.yamlStream (.yamlStream (.json 0)))
        = .err .streamManifestOutputIsNotAArray ∧
    Val.manifest trivialBackend .null (.yamlStream (.yamlStream (.json 0)))
        ≠ .err .streamManifestOutputCannotBeRecursed := by
  constructor
  · simp [Val.manifest]
  · simp [Val.manifest]

/-- C5 (amended): for every ARRAY value, manifesting under
`YamlStream(YamlStream(f))` always fails with
`StreamManifestOutputCannotBeRecursed` before touching any element, and
manifesting under `YamlStream(String)` always fails with
`StreamManifestCannotNestString` before touching any element; a
non-array value fails with `StreamManifestOutputIsNotAArray` instead. -/
theorem c5_stream_nesting_rejected :
    (∀ (B : ManifestBackend) (a : ArrValue) (f : ManifestFormat),
      Val.manifest B (.arr a) (.yamlStream (.yamlStream f))
        = .err .streamManifestOutputCannotBeRecursed) ∧
    (∀ (B : ManifestBackend) (a : ArrValue),
      Val.manifest B (.arr a) (.yamlStream .string)
        = .err .streamManifestCannotNestString) := by
  constructor
  · intro B a f
    simp [Val.manifest]
  · intro B a
    simp [Val.manifest]

/-- C7 counterexample: `equals` between a function and a non-function
value returns `false` (the type-tag check fires first), it does not raise
the function-comparison error. -/
theorem c7_counterexample :
    equals (.func (.intrinsic "id")) .null = .ok false := by
  simp [equals, Val.valueType]

/-- C7 (amended): `equals` between two function values (including a
function and itself) raises the function-comparison runtime error via
`primitive_equals`; `equals` between a function and a non-function value
returns `false` by the type-tag check without consulting
`primitive_equals`. -/
theorem c7_function_equality :
    (∀ f g : FuncVal,
      equals (.func f) (.func g)
        = .err (.runtimeError "cannot test equality of functions")) ∧
    (∀ (f : FuncVal) (v : Val), v.valueType ≠ .func →
      equals (.func f) v = .ok false ∧ equals v (.func f) = .ok false) := by
  constructor
  · intro f g
    simp [equals, Val.valueType, primitive_equals, is_function_like]
  · intro f v hv
    cases v <;> simp_all [equals, Val.valueType]

/-- C7 witness: the amended claim at concrete inputs. -/
theorem c7_witness :
    Val.valueType .null ≠ .func ∧
    equals (.func (.intrinsic "length")) (.func (.intrinsic "length"))
      = .err (.runtimeError "cannot test equality of functions") ∧
    equals .null (.func (.intrinsic "length")) = .ok false :=
  ⟨by decide, c7_function_equality.1 _ _,
    (c7_function_equality.2 (.intrinsic "length") .null (by decide)).2⟩

theorem evalAll_length :
    ∀ {l : List LazyVal} {vs : List Val},
      evalAll l = .ok vs → vs.length = l.length := by
  intro l
  induction l with
  | nil =>
    intro vs h
    simp [evalAll] at h
    subst h
    rfl
  | cons x xs ih =>
    intro vs h
    simp only [evalAll] at h
    cases hx : x.evalResult with
    | err e => rw [hx] at h; exact absurd h (by simp)
    | ok v =>
      rw [hx] at h
      cases hxs : evalAll xs with
      | err e => rw [hxs] at h; exact absurd h (by simp)
      | panicked m => rw [hxs] at h; exact absurd h (by simp)
      | ok vs' =>
        rw [hxs] at h
        simp at h
        subst h
        simp [ih hxs]

theorem manifestStreamL_ok {B : ManifestBackend} {f : ManifestFormat} :
    ∀ {l : List LazyVal} {vs : List Val} {ss : List String},
      evalAll l = .ok vs →
      List.Forall₂ (fun v s => Val.manifest B v f = .ok s) vs ss →
      manifestStreamL B f l
        = .ok (ss.foldr (fun s acc => "---\n" ++ s ++ "\n" ++ acc) "") := by
  intro l
  induction l with
  | nil =>
    intro vs ss hev hfa
    simp [evalAll] at hev
    subst hev
    cases hfa
    simp [manifestStreamL]
  | cons x xs ih =>
    intro vs ss hev hfa
    simp only [evalAll] at hev
    cases hx : x.evalResult with
    | err e => rw [hx] at hev; exact absurd hev (by simp)
    | ok v =>
      rw [hx] at hev
      cases hxs : evalAll xs with
      | err e => rw [hxs] at hev; exact absurd hev (by simp)
      | panicked m => rw [hxs] at hev; exact absurd hev (by simp)
      | ok vs' =>
        rw [hxs] at hev
        simp at hev
        subst hev
        cases hfa with
        | cons hs hrest =>
          rw [manifestStreamL, hx]
          simp [hs, ih hxs hrest]

theorem manifestStreamE_ok {B : ManifestBackend} {f : ManifestFormat} :
    ∀ {vs : List Val} {ss : List String},
      List.Forall₂ (fun v s => Val.manifest B v f = .ok s) vs ss →
      manifestStreamE B f vs
        = .ok (ss.foldr (fun s acc => "---\n" ++ s ++ "\n" ++ acc) "") := by
  intro vs
  induction vs with
  | nil =>
    intro ss hfa
    cases hfa
    simp [manifestStreamE]
  | cons v vs' ih =>
    intro ss hfa
    cases hfa with
    | cons hs hrest =>
      rw [manifestStreamE]
      simp [hs, ih hrest]

/-- C6: manifesting under `YamlStream(f)` with a valid nested `f` renders
each array element under `f`, each preceded by a `---` document-marker
line and followed by a newline, with a trailing `...` terminator when the
array is non-empty; the empty array renders to the empty string; a
non-array value fails with `StreamManifestOutputIsNotAArray`. -/
theorem c6_yaml_stream_rendering :
    (∀ (B : ManifestBackend) (f : ManifestFormat) (v : Val),
      v.valueType ≠ .arr →
      Val.manifest B v (.yamlStream f) = .err .streamManifestOutputIsNotAArray) ∧
    (∀ (B : ManifestBackend) (f : ManifestFormat) (a : ArrValue)
        (vs : List Val) (ss : List String),
      (∀ g, f ≠ .yamlStream g) → f ≠ .string →
      a.evaluated = .ok vs →
      List.Forall₂ (fun v s => Val.manifest B v f = .ok s) vs ss →
      Val.manifest B (.arr a) (.yamlStream f)
        = .ok (if ss.isEmpty then ""
               else ss.foldr (fun s acc => "---\n" ++ s ++ "\n" ++ acc) ""
                 ++ "...")) := by
  constructor
  · intro B f v hv
    cases v <;> simp_all [Val.manifest, Val.valueType]
  · intro B f a vs ss hstream hstring hev hfa
    have hlen := List.Forall₂.length_eq hfa
    cases f
    case yamlStream g => exact absurd rfl (hstream g)
    case string => exact absurd rfl hstring
    all_goals (
      cases a with
      | lazy l =>
        simp only [ArrValue.evaluated] at hev
        cases l with
        | nil =>
          simp [evalAll] at hev
          subst hev
          cases hfa
          simp [Val.manifest, ArrValue.isEmpty, ArrValue.length]
        | cons x xs =>
          have hss : ss ≠ [] := by
            intro hh
            subst hh
            have hl := evalAll_length hev
            simp at hlen
            subst hlen
            simp at hl
          obtain ⟨s0, ss', rfl⟩ := List.exists_cons_of_ne_nil hss
          simp [Val.manifest, manifestStreamL_ok hev hfa,
            ArrValue.isEmpty, ArrValue.length]
      | eager l =>
        simp only [ArrValue.evaluated] at hev
        simp at hev
        subst hev
        cases hfa with
        | nil => simp [Val.manifest, ArrValue.isEmpty, ArrValue.length]
        | cons hs hrest =>
          simp [Val.manifest, manifestStreamE_ok (List.Forall₂.cons hs hrest),
            ArrValue.isEmpty, ArrValue.length])

/-- C6 witness: the rendering property at a concrete two-element eager
array under `Json(0)` with a concrete backend, and the non-array error at
a concrete non-array value. -/
theorem c6_witness :
    Val.valueType .null ≠ .arr ∧
    Val.manifest trivialBackend .null (.yamlStream (.json 0))
      = .err .streamManifestOutputIsNotAArray ∧
    Val.manifest trivialBackend (.arr (.eager [.null, .bool true]))
        (.yamlStream (.json 0))
      = .ok "---\nJ\n---\nJ\n..." := by
  refine ⟨by decide,
    c6_yaml_stream_rendering.1 trivialBackend (.json 0) .null (by decide), ?_⟩
  have h := c6_yaml_stream_rendering.2 trivialBackend (.json 0)
    (.eager [.null, .bool true]) [.null, .bool true] ["J", "J"]
    (by intro g; simp) (by simp) (by simp [ArrValue.evaluated])
    (by
      refine List.Forall₂.cons ?_ (List.Forall₂.cons ?_ List.Forall₂.nil)
      · simp [Val.manifest, trivialBackend]
      · simp [Val.manifest, trivialBackend])
  simpa using h

/-- C9: a lazy array and an eager array holding equivalent content
(each thunk's evaluation yields the corresponding eager element) return
identical `get(i)` results for every index — the same value below the
length, `Ok(None)` at or beyond it — and `evaluated` on the lazy array
yields exactly the eager value sequence (which `evaluated` on the eager
array returns as is). -/
theorem c9_lazy_eager_refinement :
    ∀ (l : List LazyVal) (e : List Val),
      List.Forall₂ (fun lv v => lv.evalResult = .ok v) l e →
      (∀ i : Nat, ArrValue.get (.lazy l) i = ArrValue.get (.eager e) i) ∧
      ArrValue.evaluated (.lazy l) = .ok e ∧
      ArrValue.evaluated (.eager e) = .ok e := by
  intro l e hfa
  induction hfa with
  | nil =>
    refine ⟨fun i => ?_, by simp [ArrValue.evaluated, evalAll], rfl⟩
    simp [ArrValue.get]
  | cons hx hrest ih =>
    rename_i lv v l' e'
    refine ⟨fun i => ?_, ?_, rfl⟩
    · cases i with
      | zero => simp [ArrValue.get, hx]
      | succ j =>
        have := ih.1 j
        simpa [ArrValue.get] using this
    · have he' : evalAll l' = .ok e' := ih.2.1
      simp [ArrValue.evaluated, evalAll, hx, he']

/-- C9 witness: the refinement at a concrete two-element array, probing
`get` below, at, and beyond the length. -/
theorem c9_witness :
    List.Forall₂ (fun lv v => lv.evalResult = .ok v)
      [LazyVal.waiting (.ok .null), LazyVal.computed (.num 1)]
      [Val.null, Val.num 1] ∧
    ArrValue.get (.lazy [.waiting (.ok .null), .computed (.num 1)]) 0
      = ArrValue.get (.eager [.null, .num 1]) 0 ∧
    ArrValue.get (.lazy [.waiting (.ok .null), .computed (.num 1)]) 1
      = ArrValue.get (.eager [.null, .num 1]) 1 ∧
    ArrValue.get (.lazy [.waiting (.ok .null), .computed (.num 1)]) 2
      = ArrValue.get (.eager [.null, .num 1]) 2 ∧
    ArrValue.evaluated (.lazy [.waiting (.ok .null), .computed (.num 1)])
      = .ok [Val.null, Val.num 1] := by
  have hfa : List.Forall₂ (fun lv v => lv.evalResult = .ok v)
      [LazyVal.waiting (.ok .null), LazyVal.computed (.num 1)]
      [Val.null, Val.num 1] :=
    List.Forall₂.cons rfl (List.Forall₂.cons rfl List.Forall₂.nil)
  have h := c9_lazy_eager_refinement _ _ hfa
  exact ⟨hfa, h.1 0, h.1 1, h.1 2, h.2.1⟩

theorem fillArgsLoop_pre (eval : Context → Expr → EvalResult) (ctx : Context)
    (bodyCtx : Option Context) (ts : Bool) :
    ∀ (pre : List (Param × Option Expr)),
      (∀ en ∈ pre, FillsOk eval ctx bodyCtx ts en) →
      ∀ (acc : List Binding) (rest : List (Param × Option Expr)),
        ∃ acc', fillArgsLoop eval ctx bodyCtx ts acc (pre ++ rest)
          = fillArgsLoop eval ctx bodyCtx ts acc' rest := by
  intro pre
  induction pre with
  | nil =>
    intro _ acc rest
    exact ⟨acc, rfl⟩
  | cons en pre' ih =>
    intro hok acc rest
    obtain ⟨p, oe⟩ := en
    have hen : FillsOk eval ctx bodyCtx ts (p, oe) := hok (p, oe) (by simp)
    have hih := ih (fun x hx => hok x (by simp [hx]))
    cases oe with
    | some e =>
      simp only [FillsOk] at hen
      cases ts with
      | false =>
        obtain ⟨acc', ha⟩ :=
          hih (insertBinding acc p.name (.waiting (eval ctx e))) rest
        refine ⟨acc', ?_⟩
        rw [List.cons_append, fillArgsLoop]
        simpa using ha
      | true =>
        obtain ⟨v, hv⟩ := hen rfl
        obtain ⟨acc', ha⟩ :=
          hih (insertBinding acc p.name (.computed v)) rest
        refine ⟨acc', ?_⟩
        rw [List.cons_append, fillArgsLoop]
        simpa [hv] using ha
    | none =>
      simp only [FillsOk] at hen
      obtain ⟨d, bc, hd, hbc, hts⟩ := hen
      subst hbc
      cases ts with
      | false =>
        obtain ⟨acc', ha⟩ :=
          hih (insertBinding acc p.name (.waiting (eval bc d))) rest
        refine ⟨acc', ?_⟩
        rw [List.cons_append, fillArgsLoop]
        simpa [hd] using ha
      | true =>
        obtain ⟨v, hv⟩ := hts rfl
        obtain ⟨acc', ha⟩ :=
          hih (insertBinding acc p.name (.computed v)) rest
        refine ⟨acc', ?_⟩
        rw [List.cons_append, fillArgsLoop]
        simpa [hd, hv] using ha

/-- C1: the error taxonomy of the syntax-based binder. A named argument
whose name matches no parameter fails with `UnknownFunctionParameter`; an
argument whose resolved index is at or beyond the parameter count fails
with `TooManyArgsFunctionHas`; an argument whose resolved index was
already filled by a previous argument fails with
`BindingParameterASecondTime`; and once all arguments are placed, a
parameter with neither a placed argument nor a declared default makes the
whole call fail with `FunctionParameterNotBoundInCall`. -/
theorem c1_binder_error_taxonomy :
    (∀ (params : List Param) (pos : List (Option Expr)) (id : Nat)
        (n : String) (ex : Expr) (rest : List Arg),
      (∀ p ∈ params, p.name ≠ n) →
      placeArgsLoop params pos id (⟨some n, ex⟩ :: rest)
        = .err (.unknownFunctionParameter n)) ∧
    (∀ (params : List Param) (pos : List (Option Expr)) (id : Nat)
        (a : Arg) (rest : List Arg) (idx : Nat),
      resolveIdx params id a = .ok idx → params.length ≤ idx →
      placeArgsLoop params pos id (a :: rest)
        = .err (.tooManyArgsFunctionHas params.length)) ∧
    (∀ (params : List Param) (pos : List (Option Expr)) (id : Nat)
        (a : Arg) (rest : List Arg) (idx : Nat),
      resolveIdx params id a = .ok idx → idx < params.length →
      (pos.getD idx none).isSome = true →
      placeArgsLoop params pos id (a :: rest)
        = .err (.bindingParameterASecondTime
            ((params.getD idx ⟨"", none⟩).name))) ∧
    (∀ (eval : Context → Expr → EvalResult) (ctx bc : Context) (ts : Bool)
        (params : List Param) (args : List Arg) (pos : List (Option Expr))
        (pre : List (Param × Option Expr)) (p : Param)
        (post : List (Param × Option Expr)),
      placeArgs params args = .ok pos →
      params.zip pos = pre ++ (p, none) :: post →
      (∀ en ∈ pre, FillsOk eval ctx (some bc) ts en) →
      p.default = none →
      parse_function_call eval ctx (some bc) params args ts
        = .err (.functionParameterNotBoundInCall p.name)) := by
  refine ⟨?_, ?_, ?_, ?_⟩
  · intro params pos id n ex rest h
    have hnone : params.findIdx? (fun p => p.name = n) = none := by
      rw [List.findIdx?_eq_none_iff]
      intro p hp
      simp [h p hp]
    simp [placeArgsLoop, resolveIdx, hnone]
  · intro params pos id a rest idx hres hge
    simp [placeArgsLoop, hres, hge]
  · intro params pos id a rest idx hres hlt hsome
    simp only [placeArgsLoop, hres]
    rw [if_neg (Nat.not_le.2 hlt), if_pos hsome]
  · intro eval ctx bc ts params args pos pre p post hplace hzip hpre hdef
    obtain ⟨acc', ha⟩ := fillArgsLoop_pre eval ctx (some bc) ts pre hpre []
      ((p, none) :: post)
    have hfill : fillArgs eval ctx (some bc) ts (params.zip pos)
        = .err (.functionParameterNotBoundInCall p.name) := by
      rw [fillArgs, hzip, ha, fillArgsLoop]
      simp [hdef]
    rw [parse_function_call, hplace]
    simp [hfill]

/-- C1 witness: each of the four error modes at a concrete input. -/
theorem c1_witness :
    ((∀ p ∈ [Param.mk "a" none], p.name ≠ "b") ∧
      placeArgsLoop [Param.mk "a" none] [none] 0 [⟨some "b", ⟨0⟩⟩]
        = .err (.unknownFunctionParameter "b")) ∧
    (resolveIdx [] 0 ⟨none, ⟨0⟩⟩ = .ok 0 ∧
      placeArgsLoop [] [] 0 [⟨none, ⟨0⟩⟩]
        = .err (.tooManyArgsFunctionHas 0)) ∧
    (resolveIdx [Param.mk "a" none] 0 ⟨none, ⟨0⟩⟩ = .ok 0 ∧
      (([some (Expr.mk 5)] : List (Option Expr)).getD 0 none).isSome = true ∧
      placeArgsLoop [Param.mk "a" none] [some ⟨5⟩] 0 [⟨none, ⟨0⟩⟩]
        = .err (.bindingParameterASecondTime "a")) ∧
    (placeArgs [Param.mk "a" none] [] = .ok [none] ∧
      parse_function_call (fun _ _ => .ok .null) .base (some .base)
          [Param.mk "a" none] [] false
        = .err (.functionParameterNotBoundInCall "a")) := by
  refine ⟨⟨by decide, ?_⟩, ⟨rfl, ?_⟩, ⟨rfl, rfl, ?_⟩, ⟨rfl, ?_⟩⟩
  · exact c1_binder_error_taxonomy.1 [Param.mk "a" none] [none] 0 "b" ⟨0⟩ []
      (by decide)
  · exact c1_binder_error_taxonomy.2.1 [] [] 0 ⟨none, ⟨0⟩⟩ [] 0 rfl (by decide)
  · have h := c1_binder_error_taxonomy.2.2.1 [Param.mk "a" none] [some ⟨5⟩] 0
      ⟨none, ⟨0⟩⟩ [] 0 rfl (by decide) rfl
    simpa using h
  · exact c1_binder_error_taxonomy.2.2.2 (fun _ _ => .ok .null) .base .base
      false [Param.mk "a" none] [] [none] [] (Param.mk "a" none) [] rfl rfl
      (by intro en hen; cases hen) rfl

theorem lookup_insert_self (l : List Binding) (k : String) (v : LazyVal) :
    lookupBinding (insertBinding l k v) k = some v := by
  induction l with
  | nil => simp [insertBinding, lookupBinding]
  | cons b rest ih =>
    cases b with
    | mk k0 v0 =>
      by_cases h : k0 = k
      · simp [insertBinding, h, lookupBinding]
      · simp [insertBinding, h, lookupBinding, ih]

theorem lookup_insert_ne (l : List Binding) (k k' : String) (v : LazyVal)
    (h : k' ≠ k) :
    lookupBinding (insertBinding l k v) k' = lookupBinding l k' := by
  induction l with
  | nil => simp [insertBinding, lookupBinding, Ne.symm h]
  | cons b rest ih =>
    cases b with
    | mk k0 v0 =>
      by_cases h0 : k0 = k
      · subst h0
        simp [insertBinding, lookupBinding, Ne.symm h]
      · simp only [insertBinding, if_neg h0]
        by_cases h1 : k0 = k'
        · simp [lookupBinding, h1]
        · simp [lookupBinding, h1, ih]

theorem mem_insert {l : List Binding} {k : String} {v : LazyVal}
    {b : Binding} (h : b ∈ insertBinding l k v) : b ∈ l ∨ b = .mk k v := by
  induction l with
  | nil => simp [insertBinding] at h; right; exact h
  | cons b0 rest ih =>
    cases b0 with
    | mk k0 v0 =>
      by_cases h0 : k0 = k
      · simp [insertBinding, h0] at h
        rcases h with h | h
        · right; exact h
        · left; simp [h]
      · simp [insertBinding, h0] at h
        rcases h with h | h
        · left; simp [h]
        · rcases ih h with h1 | h1
          · left; simp [h1]
          · right; exact h1

/-- Inversion of one step of the default-filling loop ending in success:
the parameter got bound to a thunk `lv` whose eventual result is the
argument expression evaluated in the caller's context (placed argument)
or the default expression evaluated in the callee base context, and whose
cell state is `computed` under `tailstrict`, `waiting` otherwise. -/
theorem fillArgsLoop_cons_inv {eval : Context → Expr → EvalResult}
    {ctx : Context} {bctx : Option Context} {ts : Bool} {acc : List Binding}
    {p : Param} {oe : Option Expr} {rest : List (Param × Option Expr)}
    {out : List Binding}
    (h : fillArgsLoop eval ctx bctx ts acc ((p, oe) :: rest) = .ok out) :
    ∃ lv,
      fillArgsLoop eval ctx bctx ts (insertBinding acc p.name lv) rest
        = .ok out ∧
      (∀ e, oe = some e → lv.evalResult = eval ctx e) ∧
      (∀ d bc, oe = none → p.default = some d → bctx = some bc →
        lv.evalResult = eval bc d) ∧
      (ts = true → ∃ v, lv = .computed v) ∧
      (ts = false → ∃ r, lv = .waiting r) := by
  cases oe with
  | some e =>
    rw [fillArgsLoop] at h
    cases ts with
    | false =>
      refine ⟨.waiting (eval ctx e), by simpa using h, ?_, ?_, ?_, ?_⟩
      · intro e' he'
        cases he'
        rfl
      · intro d bc he'
        cases he'
      · intro hh
        cases hh
      · intro _
        exact ⟨_, rfl⟩
    | true =>
      cases hv : eval ctx e with
      | err er =>
        rw [hv] at h
        simp at h
      | ok v =>
        rw [hv] at h
        refine ⟨.computed v, by simpa using h, ?_, ?_, ?_, ?_⟩
        · intro e' he'
          cases he'
          simp [LazyVal.evalResult, hv]
        · intro d bc he'
          cases he'
        · intro _
          exact ⟨v, rfl⟩
        · intro hh
          cases hh
  | none =>
    rw [fillArgsLoop] at h
    cases hd : p.default with
    | none =>
      rw [hd] at h
      simp at h
    | some d =>
      rw [hd] at h
      cases bctx with
      | none => simp at h
      | some bc =>
        cases ts with
        | false =>
          refine ⟨.waiting (eval bc d), by simpa using h, ?_, ?_, ?_, ?_⟩
          · intro e' he'
            cases he'
          · intro d' bc' _ hd' hbc'
            cases hbc'
            cases hd'
            rfl
          · intro hh
            cases hh
          · intro _
            exact ⟨_, rfl⟩
        | true =>
          simp only [if_true] at h
          cases hv : eval bc d with
          | err er =>
            rw [hv] at h
            simp at h
          | ok v =>
            rw [hv] at h
            refine ⟨.computed v, by simpa using h, ?_, ?_, ?_, ?_⟩
            · intro e' he'
              cases he'
            · intro d' bc' _ hd' hbc'
              cases hbc'
              cases hd'
              simp [LazyVal.evalResult, hv]
            · intro _
              exact ⟨v, rfl⟩
            · intro hh
              cases hh

theorem fillArgsLoop_preserves {eval : Context → Expr → EvalResult}
    {ctx : Context} {bctx : Option Context} {ts : Bool} :
    ∀ {l : List (Param × Option Expr)} {acc out : List Binding} {k : String},
      fillArgsLoop eval ctx bctx ts acc l = .ok out →
      (∀ en ∈ l, en.1.name ≠ k) →
      lookupBinding out k = lookupBinding acc k := by
  intro l
  induction l with
  | nil =>
    intro acc out k h _
    simp [fillArgsLoop] at h
    subst h
    rfl
  | cons en rest ih =>
    intro acc out k h hk
    obtain ⟨p, oe⟩ := en
    obtain ⟨lv, hcont, -, -, -, -⟩ := fillArgsLoop_cons_inv h
    have h1 := ih hcont (fun x hx => hk x (by simp [hx]))
    rw [h1, lookup_insert_ne]
    exact Ne.symm (hk (p, oe) (by simp))

theorem fillArgsLoop_lookup {eval : Context → Expr → EvalResult}
    {ctx bc : Context} {ts : Bool} :
    ∀ {pre : List (Param × Option Expr)} {p : Param} {d : Expr}
      {post : List (Param × Option Expr)} {acc out : List Binding},
      fillArgsLoop eval ctx (some bc) ts acc (pre ++ (p, none) :: post)
        = .ok out →
      p.default = some d →
      (∀ en ∈ post, en.1.name ≠ p.name) →
      ∃ lv, lookupBinding out p.name = some lv ∧ lv.evalResult = eval bc d := by
  intro pre
  induction pre with
  | nil =>
    intro p d post acc out h hd hpost
    simp only [List.nil_append] at h
    obtain ⟨lv, hcont, -, hchar, -, -⟩ := fillArgsLoop_cons_inv h
    have hres := hchar d bc rfl hd rfl
    have hpres := fillArgsLoop_preserves hcont hpost
    rw [hpres, lookup_insert_self]
    exact ⟨lv, rfl, hres⟩
  | cons en pre' ih =>
    intro p d post acc out h hd hpost
    rw [List.cons_append] at h
    obtain ⟨p', oe'⟩ := en
    obtain ⟨lv, hcont, -, -, -, -⟩ := fillArgsLoop_cons_inv h
    exact ih hcont hd hpost

theorem placeArgsLoop_length {params : List Param} :
    ∀ {args : List Arg} {pos : List (Option Expr)} {id : Nat}
      {pos' : List (Option Expr)},
      placeArgsLoop params pos id args = .ok pos' → pos'.length = pos.length := by
  intro args
  induction args with
  | nil =>
    intro pos id pos' h
    simp [placeArgsLoop] at h
    subst h
    rfl
  | cons a rest ih =>
    intro pos id pos' h
    rw [placeArgsLoop] at h
    split at h
    · simp at h
    · simp at h
    · split at h
      · simp at h
      · split at h
        · simp at h
        · have := ih h
          simpa using this

theorem placeArgs_length {params : List Param} {args : List Arg}
    {pos : List (Option Expr)} (h : placeArgs params args = .ok pos) :
    pos.length = params.length := by
  have := placeArgsLoop_length h
  simpa using this

theorem zip_getElem?_of_getElem? {α β : Type} :
    ∀ {l1 : List α} {l2 : List β} {k : Nat} {x : α} {y : β},
      l1[k]? = some x → l2[k]? = some y →
      (l1.zip l2)[k]? = some (x, y) := by
  intro l1
  induction l1 with
  | nil => intro l2 k x y h1 _; simp at h1
  | cons a rest ih =>
    intro l2 k x y h1 h2
    cases l2 with
    | nil => simp at h2
    | cons b rest2 =>
      cases k with
      | zero =>
        simp at h1 h2
        simp [List.zip, h1, h2]
      | succ j =>
        simp at h1 h2
        simpa using ih h1 h2

theorem getElem?_decomp {α : Type} :
    ∀ (l : List α) (k : Nat) (x : α), l[k]? = some x →
      ∃ pre post, l = pre ++ x :: post ∧ pre.length = k := by
  intro l
  induction l with
  | nil => intro k x h; simp at h
  | cons a rest ih =>
    intro k x h
    cases k with
    | zero =>
      simp at h
      subst h
      exact ⟨[], rest, rfl, rfl⟩
    | succ j =>
      simp at h
      obtain ⟨pre, post, heq, hlen⟩ := ih j x h
      exact ⟨a :: pre, post, by simp [heq], by simp [hlen]⟩

/-- C2: on a successful call, every parameter filled from its declared
default got a thunk whose eventual result is the default expression
evaluated in the callee's captured context `bc` (not the caller's `ctx`),
and the returned frame extends `bc` (not `ctx`) with the resolved
bindings. -/
theorem c2_default_in_callee_env :
    ∀ (eval : Context → Expr → EvalResult) (ctx bc : Context) (ts : Bool)
      (params : List Param) (args : List Arg) (pos : List (Option Expr))
      (k : Nat) (p : Param) (d : Expr) (c : Context),
      (params.map Param.name).Nodup →
      placeArgs params args = .ok pos →
      params[k]? = some p →
      pos[k]? = some none →
      p.default = some d →
      parse_function_call eval ctx (some bc) params args ts = .ok c →
      ∃ out lv, c = .extended bc out ∧
        lookupBinding out p.name = some lv ∧ lv.evalResult = eval bc d := by
  intro eval ctx bc ts params args pos k p d c hnodup hplace hpk hposk hd hparse
  rw [parse_function_call, hplace] at hparse
  simp at hparse
  cases hfill : fillArgs eval ctx (some bc) ts (params.zip pos) with
  | err e => rw [hfill] at hparse; simp at hparse
  | panicked m => rw [hfill] at hparse; simp at hparse
  | ok out =>
    rw [hfill] at hparse
    simp [Context.extend] at hparse
    have hzipk := zip_getElem?_of_getElem? hpk hposk
    obtain ⟨pre, post, hzip, -⟩ := getElem?_decomp _ k _ hzipk
    have hlenpos : pos.length = params.length := placeArgs_length hplace
    have hnames : (params.zip pos).map (fun en => en.1.name)
        = params.map Param.name := by
      have h1 := List.map_fst_zip params pos (le_of_eq hlenpos.symm)
      calc (params.zip pos).map (fun en => en.1.name)
          = ((params.zip pos).map Prod.fst).map Param.name := by
            simp [List.map_map, Function.comp]
        _ = params.map Param.name := by rw [h1]
    have hnodup2 : ((pre ++ (p, none) :: post).map
        (fun en => en.1.name)).Nodup := by
      rw [← hzip, hnames]
      exact hnodup
    rw [List.map_append, List.map_cons] at hnodup2
    have hnotmem : p.name ∉ post.map (fun en => en.1.name) :=
      (List.nodup_cons.1 (List.Nodup.of_append_right hnodup2)).1
    have hpost : ∀ en ∈ post, en.1.name ≠ p.name := by
      intro en hen hne
      exact hnotmem (hne ▸ List.mem_map_of_mem (fun en => en.1.name) hen)
    rw [fillArgs, hzip] at hfill
    obtain ⟨lv, hlook, hres⟩ := fillArgsLoop_lookup hfill hd hpost
    exact ⟨out, lv, hparse.symm, hlook, hres⟩

/-- C2 witness: a one-parameter function with a default, called with no
arguments: the binding's result is the default evaluated in the callee
context (here `eval` distinguishes contexts). -/
theorem c2_witness :
    ([Param.mk "a" (some ⟨7⟩)].map Param.name).Nodup ∧
    placeArgs [Param.mk "a" (some ⟨7⟩)] [] = .ok [none] ∧
    parse_function_call
        (fun c _ => match c with
          | .base => .ok .null
          | .extended _ _ => .ok (.bool true))
        .base (some (.extended .base [])) [Param.mk "a" (some ⟨7⟩)] [] false
      = .ok (.extended (.extended .base [])
          [.mk "a" (.waiting (.ok (.bool true)))]) ∧
    (∃ out lv,
      Context.extended (.extended .base [])
          [Binding.mk "a" (.waiting (.ok (.bool true)))]
        = .extended (.extended .base []) out ∧
      lookupBinding out "a" = some lv ∧
      lv.evalResult
        = (fun (c : Context) (_ : Expr) => match c with
            | .base => EvalResult.ok .null
            | .extended _ _ => EvalResult.ok (.bool true))
            (.extended .base []) ⟨7⟩) := by
  refine ⟨by simp, rfl, rfl, ?_⟩
  exact c2_default_in_callee_env
    (fun c _ => match c with
      | .base => .ok .null
      | .extended _ _ => .ok (.bool true))
    .base (.extended .base []) false [Param.mk "a" (some ⟨7⟩)] [] [none]
    0 (Param.mk "a" (some ⟨7⟩)) ⟨7⟩
    (.extended (.extended .base []) [.mk "a" (.waiting (.ok (.bool true)))])
    (by simp) rfl rfl rfl rfl rfl

theorem fillArgsLoop_all_computed {eval : Context → Expr → EvalResult}
    {ctx : Context} {bctx : Option Context} :
    ∀ {l : List (Param × Option Expr)} {acc out : List Binding},
      fillArgsLoop eval ctx bctx true acc l = .ok out →
      (∀ b ∈ acc, ∃ v, b.value = LazyVal.computed v) →
      ∀ b ∈ out, ∃ v, b.value = LazyVal.computed v := by
  intro l
  induction l with
  | nil =>
    intro acc out h hacc
    simp [fillArgsLoop] at h
    subst h
    exact hacc
  | cons en rest ih =>
    intro acc out h hacc
    obtain ⟨p, oe⟩ := en
    obtain ⟨lv, hcont, -, -, hts, -⟩ := fillArgsLoop_cons_inv h
    obtain ⟨v, hv⟩ := hts rfl
    refine ih hcont ?_
    intro b hb
    rcases mem_insert hb with hb' | hb'
    · exact hacc b hb'
    · subst hb'
      exact ⟨v, by simp [Binding.value, hv]⟩

theorem fillArgsLoop_all_waiting {eval : Context → Expr → EvalResult}
    {ctx : Context} {bctx : Option Context} :
    ∀ {l : List (Param × Option Expr)} {acc out : List Binding},
      fillArgsLoop eval ctx bctx false acc l = .ok out →
      (∀ b ∈ acc, ∃ r, b.value = LazyVal.waiting r) →
      ∀ b ∈ out, ∃ r, b.value = LazyVal.waiting r := by
  intro l
  induction l with
  | nil =>
    intro acc out h hacc
    simp [fillArgsLoop] at h
    subst h
    exact hacc
  | cons en rest ih =>
    intro acc out h hacc
    obtain ⟨p, oe⟩ := en
    obtain ⟨lv, hcont, -, -, -, hts⟩ := fillArgsLoop_cons_inv h
    obtain ⟨r, hr⟩ := hts rfl
    refine ih hcont ?_
    intro b hb
    rcases mem_insert hb with hb' | hb'
    · exact hacc b hb'
    · subst hb'
      exact ⟨r, by simp [Binding.value, hr]⟩

/-- C4: on a successful tail-strict call, every thunk bound in the
resulting frame is already in the `computed` state the moment binding
returns; on a successful non-tail-strict call, every bound thunk is still
in the pending (`waiting`) state until explicitly evaluated. -/
theorem c4_tailstrict_thunk_states :
    ∀ (eval : Context → Expr → EvalResult) (ctx : Context)
      (bodyCtx : Option Context) (params : List Param) (args : List Arg)
      (c : Context),
      (parse_function_call eval ctx bodyCtx params args true = .ok c →
        ∃ parent out, c = .extended parent out ∧
          ∀ b ∈ out, ∃ v, b.value = LazyVal.computed v) ∧
      (parse_function_call eval ctx bodyCtx params args false = .ok c →
        ∃ parent out, c = .extended parent out ∧
          ∀ b ∈ out, ∃ r, b.value = LazyVal.waiting r) := by
  intro eval ctx bodyCtx params args c
  constructor
  · intro h
    rw [parse_function_call] at h
    cases hplace : placeArgs params args with
    | err e => rw [hplace] at h; simp at h
    | panicked m => rw [hplace] at h; simp at h
    | ok pos =>
      rw [hplace] at h
      simp at h
      cases hfill : fillArgs eval ctx bodyCtx true (params.zip pos) with
      | err e => rw [hfill] at h; simp at h
      | panicked m => rw [hfill] at h; simp at h
      | ok out =>
        rw [hfill] at h
        simp [Context.extend] at h
        rw [fillArgs] at hfill
        refine ⟨bodyCtx.getD ctx, out, h.symm, ?_⟩
        exact fillArgsLoop_all_computed hfill (by intro b hb; cases hb)
  · intro h
    rw [parse_function_call] at h
    cases hplace : placeArgs params args with
    | err e => rw [hplace] at h; simp at h
    | panicked m => rw [hplace] at h; simp at h
    | ok pos =>
      rw [hplace] at h
      simp at h
      cases hfill : fillArgs eval ctx bodyCtx false (params.zip pos) with
      | err e => rw [hfill] at h; simp at h
      | panicked m => rw [hfill] at h; simp at h
      | ok out =>
        rw [hfill] at h
        simp [Context.extend] at h
        rw [fillArgs] at hfill
        refine ⟨bodyCtx.getD ctx, out, h.symm, ?_⟩
        exact fillArgsLoop_all_waiting hfill (by intro b hb; cases hb)

/-- C4 witness: a one-argument call bound tail-strictly and lazily. -/
theorem c4_witness :
    parse_function_call (fun _ _ => .ok .null) .base none [Param.mk "a" none]
        [⟨none, ⟨3⟩⟩] true
      = .ok (.extended .base [.mk "a" (.computed .null)]) ∧
    (∃ parent out,
      Context.extended .base [Binding.mk "a" (.computed .null)]
        = .extended parent out ∧
      ∀ b ∈ out, ∃ v, b.value = LazyVal.computed v) ∧
    parse_function_call (fun _ _ => .ok .null) .base none [Param.mk "a" none]
        [⟨none, ⟨3⟩⟩] false
      = .ok (.extended .base [.mk "a" (.waiting (.ok .null))]) ∧
    (∃ parent out,
      Context.extended .base [Binding.mk "a" (.waiting (.ok .null))]
        = .extended parent out ∧
      ∀ b ∈ out, ∃ r, b.value = LazyVal.waiting r) := by
  refine ⟨rfl, ?_, rfl, ?_⟩
  · exact (c4_tailstrict_thunk_states (fun _ _ => .ok .null) .base none
      [Param.mk "a" none] [⟨none, ⟨3⟩⟩]
      (.extended .base [.mk "a" (.computed .null)])).1 rfl
  · exact (c4_tailstrict_thunk_states (fun _ _ => .ok .null) .base none
      [Param.mk "a" none] [⟨none, ⟨3⟩⟩]
      (.extended .base [.mk "a" (.waiting (.ok .null))])).2 rfl

/-- C10: when the syntax-based binder is invoked with no callee base
context (`body_ctx = None`) and an unsupplied parameter carries a declared
default, the binder aborts through `expect` with the
no-default-context message instead of returning a structured error; this
is reachable through `FuncVal::evaluate` on a native extension, which
always passes `None` as the callee context. -/
theorem c10_no_default_context_panic :
    (∀ (eval : Context → Expr → EvalResult) (ctx : Context) (ts : Bool)
        (params : List Param) (args : List Arg) (pos : List (Option Expr))
        (pre : List (Param × Option Expr)) (p : Param) (d : Expr)
        (post : List (Param × Option Expr)),
      placeArgs params args = .ok pos →
      params.zip pos = pre ++ (p, none) :: post →
      (∀ en ∈ pre, FillsOk eval ctx none ts en) →
      p.default = some d →
      parse_function_call eval ctx none params args ts
        = .panicked NO_DEFAULT_CONTEXT) ∧
    (∀ (eval : Context → Expr → EvalResult)
        (builtin : Context → String → List Arg → EvalResult)
        (native : String → List Val → EvalResult)
        (nm : String) (params : List Param) (callCtx : Context)
        (args : List Arg) (ts : Bool),
      parse_function_call eval callCtx none params args true
        = .panicked NO_DEFAULT_CONTEXT →
      FuncVal.evaluate eval builtin native (.nativeExt nm params) callCtx args
          ts
        = .panicked NO_DEFAULT_CONTEXT) := by
  constructor
  · intro eval ctx ts params args pos pre p d post hplace hzip hpre hdef
    obtain ⟨acc', ha⟩ := fillArgsLoop_pre eval ctx none ts pre hpre []
      ((p, none) :: post)
    have hfill : fillArgs eval ctx none ts (params.zip pos)
        = .panicked NO_DEFAULT_CONTEXT := by
      rw [fillArgs, hzip, ha, fillArgsLoop]
      simp [hdef]
    rw [parse_function_call, hplace]
    simp [hfill]
  · intro eval builtin native nm params callCtx args ts h
    simp [FuncVal.evaluate, h]

/-- C10 witness: a native extension whose declared parameter has a
default and receives no argument aborts with the no-default-context
message. -/
theorem c10_witness :
    placeArgs [Param.mk "a" (some ⟨1⟩)] [] = .ok [none] ∧
    parse_function_call (fun _ _ => .ok .null) .base none
        [Param.mk "a" (some ⟨1⟩)] [] true
      = .panicked NO_DEFAULT_CONTEXT ∧
    FuncVal.evaluate (fun _ _ => .ok .null) (fun _ _ _ => .ok .null)
        (fun _ _ => .ok .null) (.nativeExt "f" [Param.mk "a" (some ⟨1⟩)])
        .base [] true
      = .panicked NO_DEFAULT_CONTEXT := by
  have h1 : parse_function_call (fun _ _ => .ok .null) .base none
      [Param.mk "a" (some ⟨1⟩)] [] true = .panicked NO_DEFAULT_CONTEXT :=
    c10_no_default_context_panic.1 (fun _ _ => .ok .null) .base true
      [Param.mk "a" (some ⟨1⟩)] [] [none] [] (Param.mk "a" (some ⟨1⟩)) ⟨1⟩ []
      rfl rfl (by intro en hen; cases hen) rfl
  exact ⟨rfl, h1,
    c10_no_default_context_panic.2 (fun _ _ => .ok .null)
      (fun _ _ _ => .ok .null) (fun _ _ => .ok .null) "f"
      [Param.mk "a" (some ⟨1⟩)] .base [] true h1⟩

theorem evalResult_sizeOf {lv : LazyVal} {v : Val}
    (h : lv.evalResult = .ok v) : sizeOf v < sizeOf lv := by
  cases lv with
  | computed w =>
    simp [LazyVal.evalResult] at h
    subst h
    simp
  | waiting r =>
    cases r with
    | ok w =>
      simp [LazyVal.evalResult] at h
      subst h
      simp
      omega
    | err e => simp [LazyVal.evalResult] at h

theorem objGet_sizeOf {fs : List ObjField} {f : String} {v : Val} :
    objGet fs f = some v → sizeOf v < sizeOf fs := by
  induction fs with
  | nil =>
    intro h
    simp [objGet] at h
  | cons g rest ih =>
    intro h
    cases g with
    | mk k u =>
      by_cases hk : k = f
      · simp [objGet, hk] at h
        subst h
        simp
        omega
      · simp [objGet, hk] at h
        have := ih h
        simp
        omega

theorem list_sizeOf_pos {α : Type} [SizeOf α] (l : List α) : 1 ≤ sizeOf l := by
  cases l with
  | nil => simp
  | cons a rest =>
    simp
    try omega

theorem lazyVal_wf_eval {lv : LazyVal} (h : lv.wf = true) :
    ∃ v, lv.evalResult = .ok v ∧ v.wf = true := by
  cases lv with
  | computed v => exact ⟨v, rfl, by simpa [LazyVal.wf] using h⟩
  | waiting r =>
    cases r with
    | ok v => exact ⟨v, rfl, by simpa [LazyVal.wf] using h⟩
    | err e => simp [LazyVal.wf] at h

theorem objFields_get {fs : List ObjField} {f : String}
    (h : f ∈ objFields fs) : ∃ v, objGet fs f = some v := by
  induction fs with
  | nil => simp [objFields] at h
  | cons g rest ih =>
    cases g with
    | mk k u =>
      by_cases hk : k = f
      · exact ⟨u, by simp [objGet, hk]⟩
      · simp [objFields, ObjField.key] at h
        rcases h with h | h
        · exact absurd h.symm hk
        · obtain ⟨v, hv⟩ := ih (by simpa [objFields] using h)
          exact ⟨v, by simp [objGet, hk, hv]⟩

theorem objGet_wf {fs : List ObjField} {f : String} {v : Val}
    (hwf : objFieldsWf fs = true) (h : objGet fs f = some v) :
    v.wf = true := by
  induction fs with
  | nil => simp [objGet] at h
  | cons g rest ih =>
    cases g with
    | mk k u =>
      simp [objFieldsWf] at hwf
      by_cases hk : k = f
      · simp [objGet, hk] at h
        subst h
        exact hwf.1
      · simp [objGet, hk] at h
        exact ih hwf.2 h

theorem equals_refl_bundle : ∀ n : Nat,
    (∀ a : Val, sizeOf a ≤ n → a.wf = true → equals a a = .ok true) ∧
    (∀ l : List LazyVal, sizeOf l ≤ n → lazyListWf l = true →
      equalsLL l l = .ok true) ∧
    (∀ l : List Val, sizeOf l ≤ n → eagerListWf l = true →
      equalsEE l l = .ok true) ∧
    (∀ fs : List ObjField, sizeOf fs ≤ n → objFieldsWf fs = true →
      ∀ names : List String, (∀ f ∈ names, f ∈ objFields fs) →
      equalsFieldsLoop fs fs names = .ok true) := by
  intro n
  induction n using Nat.strong_induction_on with
  | _ n ih =>
    refine ⟨?_, ?_, ?_, ?_⟩
    · intro a hsz hwf
      cases a with
      | bool b => simp [equals, Val.valueType, primitive_equals]
      | null => simp [equals, Val.valueType, primitive_equals]
      | str s => simp [equals, Val.valueType, primitive_equals]
      | num q =>
        simp [equals, Val.valueType, primitive_equals, ratAbs, f64Epsilon]
      | func f => simp [Val.wf] at hwf
      | arr x =>
        cases x with
        | lazy l =>
          have hl : lazyListWf l = true := by
            simpa [Val.wf, ArrValue.wf] using hwf
          simp at hsz
          have hrec := (ih (n - 1) (by omega)).2.1 l (by omega) hl
          simp [equals, Val.valueType, equalsArr, hrec]
        | eager l =>
          have hl : eagerListWf l = true := by
            simpa [Val.wf, ArrValue.wf] using hwf
          simp at hsz
          have hrec := (ih (n - 1) (by omega)).2.2.1 l (by omega) hl
          simp [equals, Val.valueType, equalsArr, hrec]
      | obj fs =>
        have hfs : objFieldsWf fs = true := by simpa [Val.wf] using hwf
        simp at hsz
        have hloop := (ih (n - 1) (by omega)).2.2.2 fs (by omega) hfs
          (objFields fs) (fun f hf => hf)
        simp [equals, Val.valueType, hloop]
    · intro l hsz hwf
      cases l with
      | nil => simp [equalsLL]
      | cons x xs =>
        simp [lazyListWf] at hwf
        obtain ⟨v, hv, hvwf⟩ := lazyVal_wf_eval hwf.1
        simp at hsz
        have hvsz := evalResult_sizeOf hv
        have hveq := (ih (n - 1) (by omega)).1 v (by omega) hvwf
        have hxs := (ih (n - 1) (by omega)).2.1 xs (by omega) hwf.2
        rw [equalsLL]
        split
        · rename_i e heq
          rw [hv] at heq
          simp at heq
        · rename_i xv heq
          rw [hv] at heq
          injection heq with h1
          subst h1
          split
          · rename_i e heq2
            simp at heq2
          · rename_i yv heq2
            injection heq2 with h2
            subst h2
            simp [hveq, hxs]
    · intro l hsz hwf
      cases l with
      | nil => simp [equalsEE]
      | cons x xs =>
        simp [eagerListWf] at hwf
        simp at hsz
        have hxeq := (ih (n - 1) (by omega)).1 x (by omega) hwf.1
        have hxs := (ih (n - 1) (by omega)).2.2.1 xs (by omega) hwf.2
        simp [equalsEE, hxeq, hxs]
    · intro fs hsz hwf names
      induction names with
      | nil =>
        intro _
        simp [equalsFieldsLoop]
      | cons f rest ihn =>
        intro hnames
        obtain ⟨v, hv⟩ := objFields_get (hnames f (by simp))
        have hvwf := objGet_wf hwf hv
        have hvsz := objGet_sizeOf hv
        have hfs1 := list_sizeOf_pos fs
        have hveq := (ih (n - 1) (by omega)).1 v (by omega) hvwf
        have hrest := ihn (fun g hg => hnames g (by simp [hg]))
        rw [equalsFieldsLoop]
        split
        · rename_i heq
          rw [hv] at heq
          simp at heq
        · rename_i xv heq
          rw [hv] at heq
          injection heq with h1
          subst h1
          split
          · rename_i heq2
            simp at heq2
          · rename_i yv heq2
            injection heq2 with h2
            subst h2
            simp [hveq, hrest]

/-- C8: `equals(a, a)` returns `true` for every non-function value `a`
that is fully traversable (no function anywhere inside, every reachable
thunk's computation succeeds). -/
theorem c8_equals_refl (a : Val) (h : a.wf = true) : equals a a = .ok true :=
  (equals_refl_bundle (sizeOf a)).1 a le_rfl h

/-- C8 witness: reflexivity at a concrete object holding a lazy array,
a pending thunk, numbers, strings and booleans. -/
theorem c8_witness :
    Val.wf (.obj [⟨"k", .arr (.lazy [.waiting (.ok (.num 2)),
                                     .computed (.str "x")])⟩,
                  ⟨"m", .bool true⟩]) = true ∧
    equals
        (.obj [⟨"k", .arr (.lazy [.waiting (.ok (.num 2)),
                                  .computed (.str "x")])⟩,
               ⟨"m", .bool true⟩])
        (.obj [⟨"k", .arr (.lazy [.waiting (.ok (.num 2)),
                                  .computed (.str "x")])⟩,
               ⟨"m", .bool true⟩])
      = .ok true :=
  ⟨rfl, c8_equals_refl _ rfl⟩

end Jrsonnet
